import Mathlib

/-!
Formal model of `token_throttle.py`: a token rate-limit governor
(`TokenThrottle`) consisting of a window budget tracker
(`wait_if_needed` and friends), a boundary-aware text chunker
(`_split_text`), and a character-count token estimator (`estimate`).

Modelling conventions:
* strings are `List Char`;
* Python numbers are exact (`Int` for Python ints, `ℚ` for the float
  quantities appearing here, all of which are exactly representable);
* the monotonic clock is modelled by passing the reading `now : ℚ` to
  each operation explicitly; a sleep of `d` seconds advances the clock
  by exactly `d`, so the reading taken right after the sleep is
  `now + d` (this is the idealised fake clock the spec's scenarios use).
-/

namespace TokenThrottle

/-- Python `int(...)` applied to an exact rational: truncation toward
zero (which agrees with `Int.floor` on nonnegative arguments). -/
def pyInt (q : ℚ) : Int := if 0 ≤ q then ⌊q⌋ else -⌊-q⌋

/-- Budget derivation of `TokenThrottle.__init__` (lines 68-69):
`_effective = int(tokens_per_minute * margin)` and
`self.budget = min(budget, _effective) if budget is not None else _effective`. -/
def effectiveBudget (tokens_per_minute : Int) (margin : ℚ) (budget : Option Int) : Int :=
  let e := pyInt ((tokens_per_minute : ℚ) * margin)
  match budget with
  | some b => min b e
  | none => e

/-- Budget of `SubAgentThrottle.__init__`, which forwards
`tokens_per_minute = total_tpm` and `margin = budget_fraction` to the
base constructor and passes no explicit `budget`. -/
def subAgentBudget (total_tpm : Int) (budget_fraction : ℚ) : Int :=
  effectiveBudget total_tpm budget_fraction none

/-- Line 70: `self.chunk_size = chunk_size or self.budget` (Python
truthiness: both `None` and `0` fall back to the budget). -/
def chunkSize (budget : Int) (chunk_size : Option Int) : Int :=
  match chunk_size with
  | some c => if c = 0 then budget else c
  | none => budget

/-- `estimate` (line 80): `max(1, int(len(text) / self.chars_per_token))`. -/
def estimate (chars_per_token : ℚ) (text : List Char) : Int :=
  max 1 (pyInt ((text.length : ℚ) / chars_per_token))

/-- The mutable window state: `_tokens_used` and `_window_start`. -/
structure ThrottleState where
  tokens_used : Int
  window_start : ℚ
deriving DecidableEq

/-- `_maybe_reset_window` (lines 84-88): if at least 60 seconds elapsed
since the window start, zero the usage and restart the window at `now`. -/
def maybe_reset_window (st : ThrottleState) (now : ℚ) : ThrottleState :=
  if 60 ≤ now - st.window_start then ⟨0, now⟩ else st

/-- Outcome of `wait_if_needed`: a normal return of the seconds slept,
or the `BudgetExceeded` exception, which carries the requested token
count and the effective budget (the two values interpolated into the
exception message on lines 107-109). -/
inductive AdmitResult where
  | ok (slept : ℚ)
  | budgetExceeded (tokens budget : Int)
deriving DecidableEq

/-- `wait_if_needed` (lines 97-127).  Returns the outcome together with
the state of the tracker when the call ends (unchanged when the
exception is raised, since the raise precedes every mutation). -/
def wait_if_needed (budget : Int) (strict : Bool) (st : ThrottleState)
    (tokens : Int) (now : ℚ) : AdmitResult × ThrottleState :=
  if strict = true ∧ budget < tokens then
    (.budgetExceeded tokens budget, st)
  else
    let st1 := maybe_reset_window st now
    if st1.tokens_used + tokens ≤ budget then
      (.ok 0, ⟨st1.tokens_used + tokens, st1.window_start⟩)
    else
      let sleep_time := max 0 (60 - (now - st1.window_start) + 1/2)
      (.ok sleep_time, ⟨tokens, now + sleep_time⟩)

/-- The `remaining_tokens` property (lines 188-191): rolls the window
lazily, then returns `max(0, self.budget - self._tokens_used)` together
with the (possibly rolled) state. -/
def remaining_tokens (budget : Int) (st : ThrottleState) (now : ℚ) : Int × ThrottleState :=
  let st1 := maybe_reset_window st now
  (max 0 (budget - st1.tokens_used), st1)

/-- The `seconds_until_reset` property (lines 194-197): a read-only probe. -/
def seconds_until_reset (st : ThrottleState) (now : ℚ) : ℚ :=
  max 0 (60 - (now - st.window_start))

/-- `reset` (lines 90-93). -/
def reset (now : ℚ) : ThrottleState := ⟨0, now⟩

/-- One external operation on a tracker, tagged with the monotonic-clock
reading at which it is invoked. -/
inductive Op where
  | reserve (tokens : Int) (now : ℚ)
  | remaining (now : ℚ)
  | secondsUntilReset (now : ℚ)
  | reset (now : ℚ)

/-- The state transition each operation performs on the tracker. -/
def step (budget : Int) (strict : Bool) (st : ThrottleState) : Op → ThrottleState
  | .reserve tokens now => (wait_if_needed budget strict st tokens now).2
  | .remaining now => (remaining_tokens budget st now).2
  | .secondsUntilReset _ => st
  | .reset now => reset now

/-- Run a finite sequence of operations from a given state. -/
def run (budget : Int) (strict : Bool) (st : ThrottleState) (ops : List Op) : ThrottleState :=
  ops.foldl (step budget strict) st

/-- Python whitespace: the ASCII characters stripped by `str.strip()`
and matched by the regex class `\s` (no non-ASCII whitespace occurs in
this development). -/
def isPyWs (c : Char) : Bool :=
  c == ' ' || c == '\t' || c == '\n' || c == '\r' || c == '\x0b' || c == '\x0c'

/-- Sentence-ending punctuation of the regex `[.!?]\s+` (line 151). -/
def isSentencePunct (c : Char) : Bool := c == '.' || c == '!' || c == '?'

/-- Python `str.lstrip()`. -/
def lstrip (s : List Char) : List Char := s.dropWhile isPyWs

/-- Python `str.rstrip()`. -/
def rstrip (s : List Char) : List Char := (s.reverse.dropWhile isPyWs).reverse

/-- An occurrence of the substring `"\n\n"` starting at index `i`. -/
def pairAt (s : List Char) (i : Nat) : Bool :=
  s[i]? == some '\n' && s[i+1]? == some '\n'

/-- A space character at index `i`. -/
def spaceAt (s : List Char) (i : Nat) : Bool := s[i]? == some ' '

/-- A match of the regex `[.!?]\s+` starting at index `i`: sentence
punctuation immediately followed by at least one whitespace character. -/
def sentAt (s : List Char) (i : Nat) : Bool :=
  match s[i]?, s[i+1]? with
  | some c, some d => isSentencePunct c && isPyWs d
  | _, _ => false

/-- Line 146, `slice_.rfind("\n\n")`: the highest index at which the
substring `"\n\n"` starts, `-1` when it does not occur. -/
def rfind2 (s : List Char) : Int :=
  let k := Nat.findGreatest (fun i => pairAt s i = true) s.length
  if pairAt s k then (k : Int) else -1

/-- Line 157, `slice_.rfind(" ")`. -/
def rfindSpace (s : List Char) : Int :=
  let k := Nat.findGreatest (fun i => spaceAt s i = true) s.length
  if spaceAt s k then (k : Int) else -1

/-- Length of the maximal whitespace run of `s` starting at index `i`. -/
def wsRunFrom (s : List Char) (i : Nat) : Nat := ((s.drop i).takeWhile isPyWs).length

/-- Lines 150-152: `match.end()` of the last match produced by
`re.finditer(r"[.!?]\s+", slice_)`, `-1` when there is no match.  The
matches of this pattern are exactly the positions where `sentAt` holds:
a match consumes one punctuation character plus the following maximal
(greedy) whitespace run, and no `sentAt` position can lie strictly
inside an earlier match because the interior of a match is whitespace.
Hence the last match starts at the greatest `sentAt` position, and its
end is that position plus one plus the whitespace run after it. -/
def sentMatchEnd (s : List Char) : Int :=
  let k := Nat.findGreatest (fun i => sentAt s i = true) s.length
  if sentAt s k then ((k + 1 + wsRunFrom s (k + 1) : Nat) : Int) else -1

/-- The cascading break-position search of `_split_text` (lines 144-161)
over `slice = remaining[:max_chars]`.  The Python code keeps a running
`break_pos` which each stage overwrites when the previous candidate is
below `max_chars // 4`: paragraph break, then the end of the last
sentence match when it is strictly beyond the quarter mark (else `-1`),
then the last space, then a hard cut at exactly `max_chars`.  Because
`max_chars // 4` is nonnegative, the `-1` placeholder of the sentence
stage is never accepted, so the cascade is written here directly as
nested conditionals with the same acceptance tests. -/
def chooseBreak (slice : List Char) (maxChars : Nat) : Int :=
  if ((maxChars / 4 : Nat) : Int) ≤ rfind2 slice then rfind2 slice
  else if ((maxChars / 4 : Nat) : Int) < sentMatchEnd slice then sentMatchEnd slice
  else if ((maxChars / 4 : Nat) : Int) ≤ rfindSpace slice then rfindSpace slice
  else (maxChars : Int)

/-- The `while remaining:` loop of `_split_text` (lines 139-164): append
`remaining[:break_pos].rstrip()` and continue on
`remaining[break_pos:].lstrip()`.  The `if h : ...` guard makes the
model total: for `1 ≤ maxChars` the guard is provably always true
(lemma `split_advance` below), so the model agrees with the Python
loop; for `maxChars = 0` the Python loop never terminates on input
without leading whitespace, a case outside every property below, all of
which assume `1 ≤ maxChars`. -/
def splitLoop (remaining : List Char) (maxChars : Nat) : List (List Char) :=
  if remaining.isEmpty then []
  else if remaining.length ≤ maxChars then [remaining]
  else if h : (lstrip (remaining.drop (chooseBreak (remaining.take maxChars) maxChars).toNat)).length
      < remaining.length then
    rstrip (remaining.take (chooseBreak (remaining.take maxChars) maxChars).toNat)
      :: splitLoop (lstrip (remaining.drop (chooseBreak (remaining.take maxChars) maxChars).toNat))
          maxChars
  else [rstrip (remaining.take (chooseBreak (remaining.take maxChars) maxChars).toNat)]
termination_by remaining.length
decreasing_by exact h

/-- `_split_text` (lines 131-166): the short-input fast path followed by
the peeling loop. -/
def split (text : List Char) (maxChars : Nat) : List (List Char) :=
  if text.length ≤ maxChars then [text] else splitLoop text maxChars

/-- The chunks produced by `consume` (lines 170-183):
`max_chars = int(self.chunk_size * self.chars_per_token)` followed by
`_split_text`; each chunk is then estimated and admitted in order. -/
def consumeChunks (chunk_size : Int) (chars_per_token : ℚ) (text : List Char) : List (List Char) :=
  split text (pyInt ((chunk_size : ℚ) * chars_per_token)).toNat

/-! Basic facts about stripping. -/

lemma length_lstrip_le (s : List Char) : (lstrip s).length ≤ s.length :=
  (List.dropWhile_sublist _).length_le

lemma length_rstrip_le (s : List Char) : (rstrip s).length ≤ s.length := by
  unfold rstrip
  rw [List.length_reverse]
  calc (s.reverse.dropWhile isPyWs).length ≤ s.reverse.length :=
        (List.dropWhile_sublist _).length_le
    _ = s.length := List.length_reverse s

lemma lstrip_cons_lt (c : Char) (t : List Char) (h : isPyWs c = true) :
    (lstrip (c :: t)).length < (c :: t).length := by
  unfold lstrip
  rw [List.dropWhile_cons, if_pos h]
  exact Nat.lt_succ_of_le (length_lstrip_le t)

lemma filter_notWs_dropWhile (s : List Char) :
    (s.dropWhile isPyWs).filter (fun c => !isPyWs c) = s.filter (fun c => !isPyWs c) := by
  induction s with
  | nil => rfl
  | cons c t ih =>
    rw [List.dropWhile_cons]
    by_cases h : isPyWs c = true
    · rw [if_pos h, ih, List.filter_cons]
      simp [h]
    · rw [if_neg h]

lemma filter_notWs_lstrip (s : List Char) :
    (lstrip s).filter (fun c => !isPyWs c) = s.filter (fun c => !isPyWs c) :=
  filter_notWs_dropWhile s

lemma filter_notWs_rstrip (s : List Char) :
    (rstrip s).filter (fun c => !isPyWs c) = s.filter (fun c => !isPyWs c) := by
  unfold rstrip
  rw [List.filter_reverse, filter_notWs_dropWhile, List.filter_reverse, List.reverse_reverse]

/-! Facts about the position predicates and the find functions. -/

lemma pairAt_mem (s : List Char) (i : Nat) (h : pairAt s i = true) :
    s[i]? = some '\n' ∧ i + 1 < s.length := by
  unfold pairAt at h
  rw [Bool.and_eq_true, beq_iff_eq, beq_iff_eq] at h
  refine ⟨h.1, ?_⟩
  by_contra hlen
  push_neg at hlen
  rw [List.getElem?_eq_none hlen] at h
  exact Option.noConfusion h.2

lemma spaceAt_mem (s : List Char) (i : Nat) (h : spaceAt s i = true) :
    s[i]? = some ' ' ∧ i < s.length := by
  unfold spaceAt at h
  rw [beq_iff_eq] at h
  refine ⟨h, ?_⟩
  by_contra hlen
  push_neg at hlen
  rw [List.getElem?_eq_none hlen] at h
  exact Option.noConfusion h

lemma sentAt_lt (s : List Char) (i : Nat) (h : sentAt s i = true) : i + 1 < s.length := by
  by_contra hlen
  push_neg at hlen
  unfold sentAt at h
  rw [List.getElem?_eq_none hlen] at h
  cases hc : s[i]? <;> rw [hc] at h <;> exact Bool.noConfusion h

lemma rfind2_spec (s : List Char) (h : 0 ≤ rfind2 s) :
    pairAt s (rfind2 s).toNat = true := by
  unfold rfind2 at h ⊢
  by_cases hp : pairAt s (Nat.findGreatest (fun i => pairAt s i = true) s.length) = true
  · rw [if_pos hp]
    simpa using hp
  · rw [if_neg hp] at h
    omega

lemma rfindSpace_spec (s : List Char) (h : 0 ≤ rfindSpace s) :
    spaceAt s (rfindSpace s).toNat = true := by
  unfold rfindSpace at h ⊢
  by_cases hp : spaceAt s (Nat.findGreatest (fun i => spaceAt s i = true) s.length) = true
  · rw [if_pos hp]
    simpa using hp
  · rw [if_neg hp] at h
    omega

lemma sentMatchEnd_le (s : List Char) : sentMatchEnd s ≤ (s.length : Int) := by
  unfold sentMatchEnd
  by_cases hp : sentAt s (Nat.findGreatest (fun i => sentAt s i = true) s.length) = true
  · rw [if_pos hp]
    have h1 := sentAt_lt s _ hp
    have h2 : wsRunFrom s (Nat.findGreatest (fun i => sentAt s i = true) s.length + 1)
        ≤ (s.drop (Nat.findGreatest (fun i => sentAt s i = true) s.length + 1)).length :=
      (List.takeWhile_sublist _).length_le
    rw [List.length_drop] at h2
    omega
  · rw [if_neg hp]
    omega

lemma sentMatchEnd_pos (s : List Char) (h : 0 ≤ sentMatchEnd s) : 1 ≤ sentMatchEnd s := by
  unfold sentMatchEnd at h ⊢
  by_cases hp : sentAt s (Nat.findGreatest (fun i => sentAt s i = true) s.length) = true
  · rw [if_pos hp]
    omega
  · rw [if_neg hp] at h
    omega

/-! Facts about the break-position cascade. -/

lemma chooseBreak_nonneg (s : List Char) (m : Nat) : 0 ≤ chooseBreak s m := by
  unfold chooseBreak
  split_ifs <;> omega

lemma chooseBreak_ge (s : List Char) (m : Nat) : ((m / 4 : Nat) : Int) ≤ chooseBreak s m := by
  unfold chooseBreak
  split_ifs <;> omega

lemma chooseBreak_le (s : List Char) (m : Nat) (hs : s.length ≤ m) :
    chooseBreak s m ≤ (m : Int) := by
  unfold chooseBreak
  split_ifs with h1 h2 h3
  · have h0 : 0 ≤ rfind2 s := le_trans (by omega) h1
    have hm := (pairAt_mem s _ (rfind2_spec s h0)).2
    omega
  · have := sentMatchEnd_le s
    omega
  · have h0 : 0 ≤ rfindSpace s := le_trans (by omega) h3
    have hm := (spaceAt_mem s _ (rfindSpace_spec s h0)).2
    omega
  · omega

/-- When the accepted break position is exactly the quarter mark, it
came from the paragraph or the word stage, so the slice holds a
whitespace character (`\n` or a space) at that position. -/
lemma chooseBreak_eq_quarter_ws (s : List Char) (m : Nat) (hm : 1 ≤ m)
    (h : chooseBreak s m = ((m / 4 : Nat) : Int)) :
    ∃ c, s[(m / 4 : Nat)]? = some c ∧ isPyWs c = true := by
  unfold chooseBreak at h
  split_ifs at h with h1 h2 h3
  · have h0 : 0 ≤ rfind2 s := le_trans (by omega) h1
    have hp := rfind2_spec s h0
    have : (rfind2 s).toNat = m / 4 := by omega
    rw [this] at hp
    exact ⟨'\n', (pairAt_mem s _ hp).1, by decide⟩
  · have := sentMatchEnd_pos s (by omega)
    omega
  · have h0 : 0 ≤ rfindSpace s := le_trans (by omega) h3
    have hp := rfindSpace_spec s h0
    have : (rfindSpace s).toNat = m / 4 := by omega
    rw [this] at hp
    exact ⟨' ', (spaceAt_mem s _ hp).1, by decide⟩
  · omega

/-- Each loop iteration advances the read position by strictly more
than a quarter of `maxChars`: either the accepted break position is
past the quarter mark, or it sits exactly on it, in which case the
character there is whitespace and `lstrip` removes it. -/
lemma split_advance (r : List Char) (m : Nat) (hm : 1 ≤ m) (hr : m < r.length) :
    (lstrip (r.drop (chooseBreak (r.take m) m).toNat)).length + m / 4 + 1 ≤ r.length := by
  have hslen : (r.take m).length = m := by
    rw [List.length_take]
    omega
  have h0 := chooseBreak_nonneg (r.take m) m
  have hle := chooseBreak_le (r.take m) m (le_of_eq hslen)
  have hge := chooseBreak_ge (r.take m) m
  have hq : m / 4 < m := by omega
  rcases Nat.lt_or_ge (m / 4) (chooseBreak (r.take m) m).toNat with hlt | hge'
  · -- strictly past the quarter mark
    have h1 := length_lstrip_le (r.drop (chooseBreak (r.take m) m).toNat)
    have h2 := List.length_drop (chooseBreak (r.take m) m).toNat r
    omega
  · -- exactly on the quarter mark
    have heq : chooseBreak (r.take m) m = ((m / 4 : Nat) : Int) := by omega
    obtain ⟨c, hc, hw⟩ := chooseBreak_eq_quarter_ws (r.take m) m hm heq
    rw [List.getElem?_take_of_lt hq] at hc
    have hbp : (chooseBreak (r.take m) m).toNat = m / 4 := by omega
    have hbl : m / 4 < r.length := by omega
    have hdrop : r.drop (m / 4) = r[m / 4] :: r.drop (m / 4 + 1) :=
      List.drop_eq_getElem_cons hbl
    have hget : r[m / 4] = c := by
      have hsome : r[m / 4]? = some c := hc
      rwa [List.getElem?_eq_getElem hbl, Option.some_inj] at hsome
    rw [hbp, hdrop, hget]
    have hlt2 := lstrip_cons_lt c (r.drop (m / 4 + 1)) hw
    have h2 := List.length_drop (m / 4 + 1) r
    rw [List.length_cons, h2] at hlt2
    omega

/-- Clean unfolding of `splitLoop` for `1 ≤ maxChars`: the totality
guard is always true, and the two early exits collapse into one test. -/
lemma splitLoop_eq (r : List Char) (m : Nat) (hm : 1 ≤ m) :
    splitLoop r m =
      if r.length ≤ m then (if r.isEmpty then [] else [r])
      else
        rstrip (r.take (chooseBreak (r.take m) m).toNat)
          :: splitLoop (lstrip (r.drop (chooseBreak (r.take m) m).toNat)) m := by
  rw [splitLoop]
  by_cases he : r.isEmpty
  · have hlen : r.length = 0 := List.isEmpty_iff_length_eq_zero.mp he
    rw [if_pos he, if_pos (by omega : r.length ≤ m), if_pos he]
  · rw [if_neg he]
    by_cases h1 : r.length ≤ m
    · rw [if_pos h1, if_pos h1, if_neg he]
    · have hadv := split_advance r m hm (by omega)
      rw [if_neg h1, dif_pos (by omega :
        (lstrip (r.drop (chooseBreak (r.take m) m).toNat)).length < r.length), if_neg h1]

/-! Core inductions over the peeling loop. -/

lemma splitLoop_chunk_le (m : Nat) (hm : 1 ≤ m) :
    ∀ (n : Nat) (r : List Char), r.length ≤ n →
      ∀ chunk ∈ splitLoop r m, chunk.length ≤ m := by
  intro n
  induction n with
  | zero =>
    intro r hr chunk hc
    have hnil : r = [] := List.eq_nil_of_length_eq_zero (Nat.le_zero.mp hr)
    subst hnil
    rw [splitLoop_eq [] m hm] at hc
    simp at hc
  | succ n ih =>
    intro r hr chunk hc
    rw [splitLoop_eq r m hm] at hc
    by_cases h1 : r.length ≤ m
    · rw [if_pos h1] at hc
      by_cases h2 : r.isEmpty
      · rw [if_pos h2] at hc
        simp at hc
      · rw [if_neg h2, List.mem_singleton] at hc
        subst hc
        exact h1
    · rw [if_neg h1] at hc
      rcases List.mem_cons.mp hc with hceq | hc'
      · subst hceq
        have h0 := chooseBreak_nonneg (r.take m) m
        have hle := chooseBreak_le (r.take m) m (by rw [List.length_take]; omega)
        calc (rstrip (r.take (chooseBreak (r.take m) m).toNat)).length
            ≤ (r.take (chooseBreak (r.take m) m).toNat).length := length_rstrip_le _
          _ ≤ m := by rw [List.length_take]; omega
      · have hadv := split_advance r m hm (by omega)
        exact ih (lstrip (r.drop (chooseBreak (r.take m) m).toNat)) (by omega) chunk hc'

lemma splitLoop_filter (m : Nat) (hm : 1 ≤ m) :
    ∀ (n : Nat) (r : List Char), r.length ≤ n →
      ((splitLoop r m).flatten).filter (fun c => !isPyWs c) = r.filter (fun c => !isPyWs c) := by
  intro n
  induction n with
  | zero =>
    intro r hr
    have hnil : r = [] := List.eq_nil_of_length_eq_zero (Nat.le_zero.mp hr)
    subst hnil
    rw [splitLoop_eq [] m hm]
    simp
  | succ n ih =>
    intro r hr
    rw [splitLoop_eq r m hm]
    by_cases h1 : r.length ≤ m
    · rw [if_pos h1]
      by_cases h2 : r.isEmpty
      · rw [if_pos h2, List.isEmpty_iff.mp h2]
        simp
      · rw [if_neg h2]
        simp
    · rw [if_neg h1]
      have hadv := split_advance r m hm (by omega)
      rw [List.flatten_cons, List.filter_append, filter_notWs_rstrip,
        ih (lstrip (r.drop (chooseBreak (r.take m) m).toNat)) (by omega),
        filter_notWs_lstrip, ← List.filter_append, List.take_append_drop]

lemma splitLoop_count (m : Nat) (hm : 1 ≤ m) :
    ∀ (n : Nat) (r : List Char), r.length ≤ n →
      m * (splitLoop r m).length ≤ 4 * r.length + m - 1 := by
  intro n
  induction n with
  | zero =>
    intro r hr
    have hnil : r = [] := List.eq_nil_of_length_eq_zero (Nat.le_zero.mp hr)
    subst hnil
    rw [splitLoop_eq [] m hm]
    simp
  | succ n ih =>
    intro r hr
    rw [splitLoop_eq r m hm]
    by_cases h1 : r.length ≤ m
    · rw [if_pos h1]
      by_cases h2 : r.isEmpty
      · rw [if_pos h2]
        simp
      · rw [if_neg h2]
        have hpos : 0 < r.length :=
          List.length_pos.mpr (fun hn => h2 (by rw [hn]; rfl))
        simp
        omega
    · rw [if_neg h1]
      have hadv := split_advance r m hm (by omega)
      have hrec := ih (lstrip (r.drop (chooseBreak (r.take m) m).toNat)) (by omega)
      rw [List.length_cons]
      have hq : 4 * (m / 4) + 4 ≥ m + 1 := by omega
      calc m * ((splitLoop (lstrip (r.drop (chooseBreak (r.take m) m).toNat)) m).length + 1)
          = m * (splitLoop (lstrip (r.drop (chooseBreak (r.take m) m).toNat)) m).length + m := by
            ring
        _ ≤ 4 * (lstrip (r.drop (chooseBreak (r.take m) m).toNat)).length + m - 1 + m := by
            omega
        _ ≤ 4 * r.length + m - 1 := by omega

/-! Facts lifted from the loop to `split`. -/

lemma split_chunk_le (text : List Char) (m : Nat) (hm : 1 ≤ m) :
    ∀ chunk ∈ split text m, chunk.length ≤ m := by
  unfold split
  split_ifs with h
  · intro chunk hc
    rw [List.mem_singleton] at hc
    subst hc
    exact h
  · exact splitLoop_chunk_le m hm text.length text le_rfl

lemma split_filter (text : List Char) (m : Nat) (hm : 1 ≤ m) :
    ((split text m).flatten).filter (fun c => !isPyWs c) = text.filter (fun c => !isPyWs c) := by
  unfold split
  split_ifs with h
  · simp
  · exact splitLoop_filter m hm text.length text le_rfl

lemma split_count (text : List Char) (m : Nat) (hm : 1 ≤ m) (ht : text ≠ []) :
    m * (split text m).length ≤ 4 * text.length + m - 1 := by
  unfold split
  split_ifs with h
  · have hpos : 0 < text.length := List.length_pos.mpr ht
    simp
    omega
  · exact splitLoop_count m hm text.length text le_rfl

/-! Facts about the tracker. -/

lemma pyInt_of_nonneg (q : ℚ) (h : 0 ≤ q) : pyInt q = ⌊q⌋ := if_pos h

/-- A single operation keeps `0 ≤ tokens_used`, and in strict mode also
`tokens_used ≤ budget`, provided the admitted token counts are
nonnegative and the budget is nonnegative. -/
lemma step_preserves (b : Int) (strict : Bool) (st : ThrottleState) (op : Op)
    (hb : 0 ≤ b)
    (h0 : 0 ≤ st.tokens_used) (h1 : strict = true → st.tokens_used ≤ b)
    (hop : ∀ t now, op = Op.reserve t now → 0 ≤ t) :
    0 ≤ (step b strict st op).tokens_used ∧
      (strict = true → (step b strict st op).tokens_used ≤ b) := by
  cases op with
  | reserve t now =>
    have ht : 0 ≤ t := hop t now rfl
    simp only [step, wait_if_needed]
    by_cases hs : strict = true ∧ b < t
    · rw [if_pos hs]
      exact ⟨h0, h1⟩
    · rw [if_neg hs]
      have hst1 : 0 ≤ (maybe_reset_window st now).tokens_used ∧
          (strict = true → (maybe_reset_window st now).tokens_used ≤ b) := by
        unfold maybe_reset_window
        split_ifs
        · exact ⟨le_refl 0, fun _ => hb⟩
        · exact ⟨h0, h1⟩
      by_cases hf : (maybe_reset_window st now).tokens_used + t ≤ b
      · rw [if_pos hf]
        dsimp only
        exact ⟨by have := hst1.1; omega, fun _ => hf⟩
      · rw [if_neg hf]
        dsimp only
        refine ⟨ht, fun hstrict => ?_⟩
        have : ¬b < t := fun hlt => hs ⟨hstrict, hlt⟩
        omega
  | remaining now =>
    simp only [step, remaining_tokens, maybe_reset_window]
    split_ifs
    · exact ⟨le_refl 0, fun _ => hb⟩
    · exact ⟨h0, h1⟩
  | secondsUntilReset now => exact ⟨h0, h1⟩
  | reset now => exact ⟨le_refl 0, fun _ => hb⟩

lemma run_preserves (b : Int) (strict : Bool) (hb : 0 ≤ b) :
    ∀ (ops : List Op) (st : ThrottleState),
      0 ≤ st.tokens_used → (strict = true → st.tokens_used ≤ b) →
      (∀ t now, Op.reserve t now ∈ ops → 0 ≤ t) →
      0 ≤ (run b strict st ops).tokens_used ∧
        (strict = true → (run b strict st ops).tokens_used ≤ b) := by
  intro ops
  induction ops with
  | nil =>
    intro st h0 h1 _
    exact ⟨h0, h1⟩
  | cons op rest ih =>
    intro st h0 h1 hops
    have hstep := step_preserves b strict st op hb h0 h1
      (fun t now he => hops t now (by rw [he]; exact List.mem_cons_self _ _))
    show 0 ≤ (run b strict (step b strict st op) rest).tokens_used ∧ _
    exact ih (step b strict st op) hstep.1 hstep.2
      (fun t now hmem => hops t now (List.mem_cons_of_mem _ hmem))

/-- Concrete slow-path evaluation: effective budget 100, 90 units
already consumed, 10 elapsed seconds, request of 50 units. -/
lemma wait_concrete :
    wait_if_needed 100 false ⟨90, 0⟩ 50 10 = (AdmitResult.ok (101/2), ⟨50, 121/2⟩) := by
  have hmax : max (0 : ℚ) (60 - ((10 : ℚ) - 0) + 1/2) = 101/2 := by
    rw [max_eq_right] <;> norm_num
  simp only [wait_if_needed, maybe_reset_window]
  rw [if_neg (by simp), if_neg (by norm_num : ¬(60 : ℚ) ≤ 10 - (0 : ℚ)),
    if_neg (by norm_num : ¬(90 : Int) + 50 ≤ 100)]
  dsimp only
  rw [hmax]
  norm_num

/-- Concrete evaluation of the split of `"aaaa bbbb"` at 4 characters:
no paragraph, sentence, or space break survives the quarter-mark floor
inside `"aaaa"`, so the first cut is a hard cut at 4, and the stripped
remainder `"bbbb"` then fits. -/
lemma split_aaaa : split ("aaaa bbbb".toList) 4 = ["aaaa".toList, "bbbb".toList] := by
  unfold split
  rw [if_neg (by decide)]
  rw [splitLoop_eq _ _ (by norm_num), if_neg (by decide)]
  have hhead : rstrip (List.take
      (chooseBreak (List.take 4 ("aaaa bbbb".toList)) 4).toNat ("aaaa bbbb".toList)) =
      "aaaa".toList := by decide
  have harg : lstrip (List.drop
      (chooseBreak (List.take 4 ("aaaa bbbb".toList)) 4).toNat ("aaaa bbbb".toList)) =
      "bbbb".toList := by decide
  rw [hhead, harg, splitLoop_eq _ _ (by norm_num), if_pos (by decide), if_neg (by decide)]

/-! Claim theorems. -/

/-- C1: in the non-error cases (strict mode off, or the request within
the budget), `wait_if_needed` first rolls the window lazily; then if
`unitsConsumed + units ≤ effectiveBudget` it increments `unitsConsumed`
by exactly `units` and returns 0 without suspending, and otherwise it
suspends for `sleepDuration = max(0, 60 - elapsed + 0.5)`, sets
`unitsConsumed = units` and `windowStartTimestamp` to the resume time,
and returns `sleepDuration`.  In particular, with effective budget 100,
`unitsConsumed = 90` and 10 elapsed seconds, `admit(50)` suspends for
exactly 50.5 seconds and leaves `unitsConsumed = 50`. -/
theorem wait_if_needed_spec (budget : Int) (strict : Bool) (st : ThrottleState)
    (tokens : Int) (now : ℚ) (h : ¬(strict = true ∧ budget < tokens)) :
    (if (maybe_reset_window st now).tokens_used + tokens ≤ budget then
      wait_if_needed budget strict st tokens now =
        (AdmitResult.ok 0,
         ⟨(maybe_reset_window st now).tokens_used + tokens,
          (maybe_reset_window st now).window_start⟩)
    else
      wait_if_needed budget strict st tokens now =
        (AdmitResult.ok (max 0 (60 - (now - (maybe_reset_window st now).window_start) + 1/2)),
         ⟨tokens, now + max 0 (60 - (now - (maybe_reset_window st now).window_start) + 1/2)⟩))
    ∧ wait_if_needed 100 false ⟨90, 0⟩ 50 10 = (AdmitResult.ok (101/2), ⟨50, 121/2⟩) := by
  constructor
  · simp only [wait_if_needed]
    rw [if_neg h]
    by_cases hf : (maybe_reset_window st now).tokens_used + tokens ≤ budget
    · rw [if_pos hf, if_pos hf]
    · rw [if_neg hf, if_neg hf]
  · exact wait_concrete

theorem wait_if_needed_spec_witness :
    wait_if_needed 100 false ⟨90, 0⟩ 50 10 = (AdmitResult.ok (101/2), ⟨50, 121/2⟩) :=
  (wait_if_needed_spec 100 false ⟨90, 0⟩ 50 10 (by simp)).2

/-- C2: `wait_if_needed` raises `BudgetExceeded` if and only if strict
mode is on and the requested units exceed the effective budget; when it
raises, the raise precedes every mutation, so the state is exactly the
state before the call, and the error carries the requested unit count
and the effective budget. -/
theorem wait_if_needed_raises_iff (budget : Int) (strict : Bool) (st : ThrottleState)
    (tokens : Int) (now : ℚ) :
    ((∃ a c, (wait_if_needed budget strict st tokens now).1 = AdmitResult.budgetExceeded a c)
      ↔ (strict = true ∧ budget < tokens))
    ∧ ((strict = true ∧ budget < tokens) →
        wait_if_needed budget strict st tokens now =
          (AdmitResult.budgetExceeded tokens budget, st)) := by
  simp only [wait_if_needed]
  by_cases hs : strict = true ∧ budget < tokens
  · rw [if_pos hs]
    exact ⟨⟨fun _ => hs, fun _ => ⟨tokens, budget, rfl⟩⟩, fun _ => rfl⟩
  · rw [if_neg hs]
    refine ⟨⟨?_, fun hc => absurd hc hs⟩, fun hc => absurd hc hs⟩
    rintro ⟨a, c, hac⟩
    by_cases hf : (maybe_reset_window st now).tokens_used + tokens ≤ budget
    · rw [if_pos hf] at hac
      exact AdmitResult.noConfusion hac
    · rw [if_neg hf] at hac
      exact AdmitResult.noConfusion hac

theorem wait_if_needed_raises_iff_witness :
    wait_if_needed 100 true ⟨0, 0⟩ 150 0 = (AdmitResult.budgetExceeded 150 100, ⟨0, 0⟩) :=
  (wait_if_needed_raises_iff 100 true ⟨0, 0⟩ 150 0).2 ⟨rfl, by norm_num⟩

/-- C3 counterexample: a freshly constructed non-strict tracker with
effective budget 100 (rate limit 200, margin 1/2, a valid
configuration) admits a single nonnegative request of 101 units;
afterwards `unitsConsumed = 101 > effectiveBudget`, so the claimed
invariant `unitsConsumed ≤ effectiveBudget` fails. -/
theorem tokens_used_can_exceed_budget :
    (run (effectiveBudget 200 (1/2) none) false ⟨0, 0⟩ [Op.reserve 101 0]).tokens_used = 101 ∧
    ¬((run (effectiveBudget 200 (1/2) none) false ⟨0, 0⟩ [Op.reserve 101 0]).tokens_used
        ≤ effectiveBudget 200 (1/2) none) := by
  have hb : effectiveBudget 200 (1/2) none = 100 := by
    norm_num [effectiveBudget, pyInt]
  have hrun : (run (effectiveBudget 200 (1/2) none) false ⟨0, 0⟩
      [Op.reserve 101 0]).tokens_used = 101 := by
    rw [hb]
    show (wait_if_needed 100 false ⟨0, 0⟩ 101 0).2.tokens_used = 101
    simp only [wait_if_needed, maybe_reset_window]
    rw [if_neg (by simp), if_neg (by norm_num : ¬(60 : ℚ) ≤ 0 - (0 : ℚ)),
      if_neg (by norm_num : ¬(0 : Int) + 101 ≤ 100)]
  refine ⟨hrun, ?_⟩
  rw [hrun, hb]
  norm_num

/-- C3 amended: starting from a freshly constructed tracker, after
every finite sequence of operations with nonnegative requested unit
counts, `0 ≤ unitsConsumed` always holds; `unitsConsumed ≤
effectiveBudget` additionally holds whenever strict mode is on (with a
nonnegative effective budget).  In non-strict mode a single oversized
request can push `unitsConsumed` above the budget (see
`tokens_used_can_exceed_budget`). -/
theorem run_tokens_used_invariant (budget : Int) (strict : Bool) (t0 : ℚ) (ops : List Op)
    (hb : 0 ≤ budget)
    (hops : ∀ t now, Op.reserve t now ∈ ops → 0 ≤ t) :
    0 ≤ (run budget strict ⟨0, t0⟩ ops).tokens_used ∧
      (strict = true → (run budget strict ⟨0, t0⟩ ops).tokens_used ≤ budget) :=
  run_preserves budget strict hb ops ⟨0, t0⟩ (le_refl 0) (fun _ => hb) hops

theorem run_tokens_used_invariant_witness :
    0 ≤ (run 100 true ⟨0, 0⟩ [Op.reserve 50 0, Op.reserve 60 1]).tokens_used ∧
      (true = true → (run 100 true ⟨0, 0⟩ [Op.reserve 50 0, Op.reserve 60 1]).tokens_used ≤ 100) :=
  run_tokens_used_invariant 100 true 0 [Op.reserve 50 0, Op.reserve 60 1] (by norm_num)
    (by
      intro t now hmem
      rcases List.mem_cons.mp hmem with h | hmem2
      · cases h
        norm_num
      · rcases List.mem_cons.mp hmem2 with h | h
        · cases h
          norm_num
        · exact absurd h (List.not_mem_nil _))

/-- C4 counterexample: rate limit 1 with margin 1/2 (a margin inside
the data model's `(0,1]` range, with no hard ceiling) derives
`int(1 * 0.5) = 0`, so `effectiveBudget > 0` fails for this valid
configuration. -/
theorem effectiveBudget_zero_example :
    effectiveBudget 1 (1/2) none = 0 ∧ (0 < (1 : ℚ)/2 ∧ (1 : ℚ)/2 ≤ 1) := by
  constructor
  · norm_num [effectiveBudget, pyInt, Int.floor_eq_zero_iff, Set.mem_Ico]
  · norm_num

/-- C4 amended: for a nonnegative product `rateLimit * marginFactor`,
`effectiveBudget = min(hardCeiling, floor(rateLimit * marginFactor))`
when the hard ceiling is set, else `floor(rateLimit * marginFactor)`;
it is positive whenever `floor(rateLimit * marginFactor) ≥ 1` and, when
set, `hardCeiling ≥ 1` — but not for every configuration with margin in
`(0,1]` (see `effectiveBudget_zero_example`).  Under the sub-agent
preset, total 30000 with fraction 0.5 yields 15000 and fraction 0.4
yields 12000. -/
theorem effectiveBudget_spec (tpm : Int) (margin : ℚ)
    (hm : 0 ≤ (tpm : ℚ) * margin) :
    (effectiveBudget tpm margin none = ⌊(tpm : ℚ) * margin⌋ ∧
      ∀ hc : Int, effectiveBudget tpm margin (some hc) = min hc ⌊(tpm : ℚ) * margin⌋) ∧
    (1 ≤ ⌊(tpm : ℚ) * margin⌋ →
      0 < effectiveBudget tpm margin none ∧
        ∀ hc : Int, 1 ≤ hc → 0 < effectiveBudget tpm margin (some hc)) ∧
    (subAgentBudget 30000 (1/2) = 15000 ∧ subAgentBudget 30000 (2/5) = 12000) := by
  have he : effectiveBudget tpm margin none = ⌊(tpm : ℚ) * margin⌋ := by
    unfold effectiveBudget
    exact pyInt_of_nonneg _ hm
  have hsome : ∀ hc : Int, effectiveBudget tpm margin (some hc) =
      min hc ⌊(tpm : ℚ) * margin⌋ := by
    intro hc
    unfold effectiveBudget
    rw [pyInt_of_nonneg _ hm]
  refine ⟨⟨he, hsome⟩, fun h1 => ⟨by omega, fun hc hc1 => ?_⟩,
    by norm_num [subAgentBudget, effectiveBudget, pyInt],
    by norm_num [subAgentBudget, effectiveBudget, pyInt]⟩
  rw [hsome hc]
  exact lt_min (by omega) (by omega)

theorem effectiveBudget_spec_witness :
    effectiveBudget 200 (1/2) none = ⌊((200 : Int) : ℚ) * (1/2)⌋ ∧
      subAgentBudget 30000 (1/2) = 15000 :=
  ⟨((effectiveBudget_spec 200 (1/2) (by norm_num)).1).1,
   ((effectiveBudget_spec 200 (1/2) (by norm_num)).2).2.1⟩

/-- C5: for every text and every `maxCharacters ≥ 1`, every chunk in
the sequence returned by `split` has character length at most
`maxCharacters` (the hard-cut case cuts at exactly `maxCharacters`, so
it too respects the bound). -/
theorem chunk_length_bounded (text : List Char) (maxChars : Nat) (hm : 1 ≤ maxChars) :
    ∀ chunk ∈ split text maxChars, chunk.length ≤ maxChars :=
  split_chunk_le text maxChars hm

theorem chunk_length_bounded_witness :
    ("aaaa".toList ∈ split ("aaaa bbbb".toList) 4) ∧ ("aaaa".toList).length ≤ 4 :=
  ⟨by rw [split_aaaa]; decide,
   chunk_length_bounded ("aaaa bbbb".toList) 4 (by decide) ("aaaa".toList)
     (by rw [split_aaaa]; decide)⟩

/-- C6: `split` removes only whitespace at chunk boundaries: the
sequence of non-whitespace characters in the concatenation of all
returned chunks, in order, equals the sequence of non-whitespace
characters of the original text. -/
theorem split_lossless (text : List Char) (maxChars : Nat) (hm : 1 ≤ maxChars) :
    ((split text maxChars).flatten).filter (fun c => !isPyWs c) =
      text.filter (fun c => !isPyWs c) :=
  split_filter text maxChars hm

theorem split_lossless_witness :
    ((split ("He said hi. Then left".toList) 12).flatten).filter (fun c => !isPyWs c) =
      ("He said hi. Then left".toList).filter (fun c => !isPyWs c) :=
  split_lossless ("He said hi. Then left".toList) 12 (by norm_num)

/-- C7 counterexample: the claimed chunk-count bound
`ceil(length(text)/(maxCharacters/4))` fails on empty text: `split`
returns the one-element sequence `[""]` while the bound evaluates
to 0. -/
theorem split_empty_text_count :
    split ([] : List Char) 4 = [[]] ∧
      ¬((split ([] : List Char) 4).length ≤ (4 * ([] : List Char).length + 4 - 1) / 4) := by
  constructor <;> decide

/-- C7 amended: `split` terminates for every text and every
`maxCharacters ≥ 1` — it is a total function whose loop strictly
advances the read position each iteration — and for nonempty text the
returned sequence is finite with at most
`ceil(length(text)/(maxCharacters/4)) = ceil(4*length/maxCharacters)`
chunks; empty text yields the single chunk `[""]`. -/
theorem split_length_bounded (text : List Char) (maxChars : Nat)
    (hm : 1 ≤ maxChars) (ht : text ≠ []) :
    (split text maxChars).length ≤ (4 * text.length + maxChars - 1) / maxChars := by
  rw [Nat.le_div_iff_mul_le (by omega : 0 < maxChars), Nat.mul_comm]
  exact split_count text maxChars hm ht

theorem split_length_bounded_witness :
    (split ("aaaa bbbb".toList) 4).length ≤ (4 * ("aaaa bbbb".toList).length + 4 - 1) / 4 :=
  split_length_bounded ("aaaa bbbb".toList) 4 (by decide) (by decide)

/-- C8: `estimate` computes `max(1, floor(length(text)/charsPerUnit))`
(for a positive ratio the Python truncation equals the floor), never
returns 0 or a negative value, and maps even the empty string to 1. -/
theorem estimate_spec (chars_per_token : ℚ) (text : List Char) (h : 0 < chars_per_token) :
    estimate chars_per_token text = max 1 ⌊(text.length : ℚ) / chars_per_token⌋ ∧
      1 ≤ estimate chars_per_token text ∧ estimate chars_per_token [] = 1 := by
  have hq : (0 : ℚ) ≤ (text.length : ℚ) / chars_per_token :=
    div_nonneg (by positivity) (le_of_lt h)
  refine ⟨?_, le_max_left 1 _, ?_⟩
  · unfold estimate
    rw [pyInt_of_nonneg _ hq]
  · show max 1 (pyInt ((([] : List Char).length : ℚ) / chars_per_token)) = 1
    norm_num [pyInt]

theorem estimate_spec_witness :
    estimate 4 (List.replicate 8 'a') = max 1 ⌊((List.replicate 8 'a').length : ℚ) / 4⌋ ∧
      1 ≤ estimate 4 (List.replicate 8 'a') :=
  ⟨(estimate_spec 4 (List.replicate 8 'a') (by norm_num)).1,
   (estimate_spec 4 (List.replicate 8 'a') (by norm_num)).2.1⟩

/-- C9: for every configuration with `chunkUnitLimit ≥ 1`, positive
`charsPerUnit`, and derived character limit
`floor(chunkUnitLimit * charsPerUnit) ≥ 1`, every chunk yielded by
`consume` has estimated unit count within the per-chunk limit. -/
theorem consume_chunk_estimate_le (chunk_size : Int) (chars_per_token : ℚ) (text : List Char)
    (hcs : 1 ≤ chunk_size) (hcpt : 0 < chars_per_token)
    (hmc : 1 ≤ pyInt ((chunk_size : ℚ) * chars_per_token)) :
    ∀ chunk ∈ consumeChunks chunk_size chars_per_token text,
      estimate chars_per_token chunk ≤ chunk_size := by
  intro chunk hc
  have h0 : (0 : ℚ) ≤ (chunk_size : ℚ) * chars_per_token :=
    mul_nonneg (by exact_mod_cast (by omega : (0 : Int) ≤ chunk_size)) (le_of_lt hcpt)
  have hMfloor : pyInt ((chunk_size : ℚ) * chars_per_token) =
      ⌊(chunk_size : ℚ) * chars_per_token⌋ := pyInt_of_nonneg _ h0
  have hmnat : 1 ≤ (pyInt ((chunk_size : ℚ) * chars_per_token)).toNat := by omega
  have hlen := split_chunk_le text _ hmnat chunk hc
  have hlenZ : (chunk.length : ℤ) ≤ ⌊(chunk_size : ℚ) * chars_per_token⌋ := by
    rw [← hMfloor]
    omega
  have hlenQ : (chunk.length : ℚ) ≤ (chunk_size : ℚ) * chars_per_token :=
    le_trans (by exact_mod_cast hlenZ) (Int.floor_le _)
  have hdiv : (chunk.length : ℚ) / chars_per_token ≤ (chunk_size : ℚ) := by
    rw [div_le_iff₀ hcpt]
    exact hlenQ
  have hfloor2 : ⌊(chunk.length : ℚ) / chars_per_token⌋ ≤ chunk_size := by
    calc ⌊(chunk.length : ℚ) / chars_per_token⌋ ≤ ⌊(chunk_size : ℚ)⌋ :=
          Int.floor_le_floor hdiv
      _ = chunk_size := Int.floor_intCast chunk_size
  unfold estimate
  rw [pyInt_of_nonneg _ (div_nonneg (by positivity) (le_of_lt hcpt))]
  exact max_le hcs hfloor2

theorem consume_chunk_estimate_le_witness :
    List.replicate 8 'a' ∈ consumeChunks 2 4 (List.replicate 8 'a') ∧
      estimate 4 (List.replicate 8 'a') ≤ 2 := by
  have hM : pyInt (((2 : Int) : ℚ) * 4) = 8 := by
    norm_num [pyInt]
  have hmem : List.replicate 8 'a' ∈ consumeChunks 2 4 (List.replicate 8 'a') := by
    unfold consumeChunks
    rw [hM]
    decide
  exact ⟨hmem,
    consume_chunk_estimate_le 2 4 (List.replicate 8 'a') (by norm_num) (by norm_num)
      (by rw [hM]; norm_num) (List.replicate 8 'a') hmem⟩

/-- C10: `split` can yield the empty string as a chunk: on the 8-space
text with `maxCharacters = 4` (length exceeds `maxCharacters`, and
`maxCharacters ≥ 4`), the accepted break prefix is entirely whitespace
and is stripped to empty before being appended. -/
theorem split_empty_chunk_example :
    ([] : List Char) ∈ split (List.replicate 8 ' ') 4 ∧
      4 < (List.replicate 8 ' ').length := by
  constructor
  · unfold split
    rw [if_neg (by decide)]
    rw [splitLoop_eq _ _ (by norm_num), if_neg (by decide)]
    have hhead : rstrip (List.take
        (chooseBreak (List.take 4 (List.replicate 8 ' ')) 4).toNat (List.replicate 8 ' ')) =
        ([] : List Char) := by decide
    rw [hhead]
    exact List.mem_cons_self _ _
  · decide

end TokenThrottle
